import Mathlib

/-!
Verification of the hydrogen-bond extraction/normalization/deduplication
pipeline of `hbonds_312_summary_gui.py`.

The embedding is a direct translation of the source:

* The regular expression `pat` is embedded as a token list `hbToks` together
  with a priority-faithful backtracking matcher (`matchToks`, `searchToks`):
  greedy pieces (`\d+`, `\s+`, `\S+`, the `{3}` repetition) try the longest
  extension first, the lazy gaps (`.*?`) try the shortest first, and
  `searchToks` returns the match at the leftmost feasible start position,
  exactly as Python's `re.search` does.  Character classes are modelled over
  the characters that occur in the tool's ASCII input.
* `float(...)` values parsed from `\d+\.\d+` captures are modelled as exact
  rationals; decimal literals of this length are ordered and compared by IEEE
  doubles exactly as their rational values are, so `min` and comparisons agree.
* Python dicts preserve insertion order, so `best` and `summary` are modelled
  as association lists where updating an existing key keeps its position and
  a new key is appended at the end.
* `sorted` with a key function is Python's stable sort; it is modelled by
  `List.insertionSort` with the non-strict lexicographic comparison on the
  same key, which computes the identical (unique) stable reordering.
-/

namespace Hbonds312

/-- Model of Python `\d` on the tool's input characters. -/
def isPyDigit (c : Char) : Bool := c.isDigit

/-- Model of Python `\s` on the tool's input characters. -/
def isPySpace (c : Char) : Bool :=
  c = ' ' || c = '\t' || c = '\n' || c = '\r' || c = '\x0b' || c = '\x0c'

/-- Model of Python `\S`. -/
def isPyNonSpace (c : Char) : Bool := !(isPySpace c)

/-- The character class `[A-Z]`. -/
def isUpperAZ (c : Char) : Bool := 'A' ≤ c && c ≤ 'Z'

/-- Model of `.` (any character except a newline). -/
def isDotAny (c : Char) : Bool := c ≠ '\n'

/-- One token of the fixed regular expression `pat`: a literal character, a
single character of a class, a greedy Kleene star of a class, a lazy star of a
class, or a capture-group boundary marker. `\d+` is encoded as `one` followed
by `gstar`, which backtracks with the same priorities as the greedy `+`. -/
inductive Tok where
  | lit (c : Char)
  | one (f : Char → Bool)
  | gstar (f : Char → Bool)
  | lazystar (f : Char → Bool)
  | openG (i : Nat)
  | closeG (i : Nat)

/-- Backtracking matcher for a token list against the suffix `s` of the input
starting at absolute position `pos`; `ev` accumulates capture-group boundary
events `(group, position)`.  Greedy stars try consuming first; lazy stars try
the continuation first — Python's backtracking priorities.  Every recursive
call consumes one input character or drops one token, so the recursion depth
is below `s.length + ts.length + 1`; the structural `fuel` argument (always
supplied above that bound, see `runToks` and `matchToks_fuel_irrel`) only
makes the recursion kernel-computable and never alters the result. -/
def matchToks : Nat → List Tok → List Char → Nat → List (Nat × Nat) →
    Option (List (Nat × Nat))
  | 0, _, _, _, _ => none
  | _ + 1, [], _, _, ev => some ev
  | fuel + 1, Tok.lit c :: ts, s, pos, ev =>
    match s with
    | [] => none
    | a :: s' => if a = c then matchToks fuel ts s' (pos + 1) ev else none
  | fuel + 1, Tok.one f :: ts, s, pos, ev =>
    match s with
    | [] => none
    | a :: s' => if f a then matchToks fuel ts s' (pos + 1) ev else none
  | fuel + 1, Tok.gstar f :: ts, s, pos, ev =>
    match s with
    | [] => matchToks fuel ts [] pos ev
    | a :: s' =>
      if f a then
        match matchToks fuel (Tok.gstar f :: ts) s' (pos + 1) ev with
        | some r => some r
        | none => matchToks fuel ts (a :: s') pos ev
      else matchToks fuel ts (a :: s') pos ev
  | fuel + 1, Tok.lazystar f :: ts, s, pos, ev =>
    match matchToks fuel ts s pos ev with
    | some r => some r
    | none =>
      match s with
      | [] => none
      | a :: s' =>
        if f a then matchToks fuel (Tok.lazystar f :: ts) s' (pos + 1) ev
        else none
  | fuel + 1, Tok.openG i :: ts, s, pos, ev =>
    matchToks fuel ts s pos (ev ++ [(i, pos)])
  | fuel + 1, Tok.closeG i :: ts, s, pos, ev =>
    matchToks fuel ts s pos (ev ++ [(i, pos)])

/-- Attempt a match of the token list at one position, with sufficient fuel. -/
def runToks (ts : List Tok) (s : List Char) (pos : Nat) :
    Option (List (Nat × Nat)) :=
  matchToks (s.length + ts.length + 1) ts s pos []

/-- Leftmost search, as `re.search`: try a match starting at each position in
turn, from the left. -/
def searchToks (ts : List Tok) : List Char → Nat → Option (List (Nat × Nat))
  | [], pos => runToks ts [] pos
  | a :: s', pos =>
    match runToks ts (a :: s') pos with
    | some ev => some ev
    | none => searchToks ts s' (pos + 1)

/-- The token list for the source regular expression
`#(?P<m1>\d+)/(?P<c1>\S)\s+(?P<r1>[A-Z]{3})\s+(?P<n1>\d+)\s+(?P<a1>\S+)\s+.*?`
`#(?P<m2>\d+)/(?P<c2>\S)\s+(?P<r2>[A-Z]{3})\s+(?P<n2>\d+)\s+(?P<a2>\S+)\s+.*?`
`\s(?P<da>\d+\.\d+)\s` with groups numbered 0–10 in order
m1 c1 r1 n1 a1 m2 c2 r2 n2 a2 da. -/
def hbToks : List Tok :=
  [Tok.lit '#',
   Tok.openG 0, Tok.one isPyDigit, Tok.gstar isPyDigit, Tok.closeG 0,
   Tok.lit '/',
   Tok.openG 1, Tok.one isPyNonSpace, Tok.closeG 1,
   Tok.one isPySpace, Tok.gstar isPySpace,
   Tok.openG 2, Tok.one isUpperAZ, Tok.one isUpperAZ, Tok.one isUpperAZ,
   Tok.closeG 2,
   Tok.one isPySpace, Tok.gstar isPySpace,
   Tok.openG 3, Tok.one isPyDigit, Tok.gstar isPyDigit, Tok.closeG 3,
   Tok.one isPySpace, Tok.gstar isPySpace,
   Tok.openG 4, Tok.one isPyNonSpace, Tok.gstar isPyNonSpace, Tok.closeG 4,
   Tok.one isPySpace, Tok.gstar isPySpace,
   Tok.lazystar isDotAny,
   Tok.lit '#',
   Tok.openG 5, Tok.one isPyDigit, Tok.gstar isPyDigit, Tok.closeG 5,
   Tok.lit '/',
   Tok.openG 6, Tok.one isPyNonSpace, Tok.closeG 6,
   Tok.one isPySpace, Tok.gstar isPySpace,
   Tok.openG 7, Tok.one isUpperAZ, Tok.one isUpperAZ, Tok.one isUpperAZ,
   Tok.closeG 7,
   Tok.one isPySpace, Tok.gstar isPySpace,
   Tok.openG 8, Tok.one isPyDigit, Tok.gstar isPyDigit, Tok.closeG 8,
   Tok.one isPySpace, Tok.gstar isPySpace,
   Tok.openG 9, Tok.one isPyNonSpace, Tok.gstar isPyNonSpace, Tok.closeG 9,
   Tok.one isPySpace, Tok.gstar isPySpace,
   Tok.lazystar isDotAny,
   Tok.one isPySpace,
   Tok.openG 10, Tok.one isPyDigit, Tok.gstar isPyDigit,
   Tok.lit '.', Tok.one isPyDigit, Tok.gstar isPyDigit, Tok.closeG 10,
   Tok.one isPySpace]

/-- The boundary positions of capture group `i` in an event list (each group
occurs exactly once in `hbToks`, so it contributes one open and one close
event, in that order). -/
def evFind (ev : List (Nat × Nat)) (i : Nat) : Option (Nat × Nat) :=
  match ev.filter (fun e => e.1 = i) with
  | [po, pc] => some (po.2, pc.2)
  | _ => none

/-- The substring of `s` between absolute positions `a` (inclusive) and `b`
(exclusive). -/
def slice (s : List Char) (a b : Nat) : String := String.mk ((s.drop a).take (b - a))

/-- Captured text of group `i`. -/
def getG (s : List Char) (ev : List (Nat × Nat)) (i : Nat) : Option String :=
  (evFind ev i).map (fun p => slice s p.1 p.2)

/-- The named capture groups of one matched line (`m.groupdict()` in the
source): two endpoints `(model, chain, residue name, residue number, atom
name)` and the textual donor–acceptor distance. -/
structure RawFields where
  m1 : String
  c1 : String
  r1 : String
  n1 : String
  a1 : String
  m2 : String
  c2 : String
  r2 : String
  n2 : String
  a2 : String
  da : String
deriving DecidableEq, Repr

/-- `pat.search(line)` followed by `m.groupdict()`: the structured field set
of a line, or `none` when the line does not match. -/
def patSearch (line : String) : Option RawFields :=
  match searchToks hbToks line.data 0 with
  | none => none
  | some ev =>
    match getG line.data ev 0, getG line.data ev 1, getG line.data ev 2,
        getG line.data ev 3, getG line.data ev 4, getG line.data ev 5,
        getG line.data ev 6, getG line.data ev 7, getG line.data ev 8,
        getG line.data ev 9, getG line.data ev 10 with
    | some m1, some c1, some r1, some n1, some a1, some m2, some c2, some r2,
        some n2, some a2, some da =>
      some ⟨m1, c1, r1, n1, a1, m2, c2, r2, n2, a2, da⟩
    | _, _, _, _, _, _, _, _, _, _, _ => none

/-- Decimal value of a digit string, as Python `int` reads a `\d+` capture. -/
def digitsToNat (s : List Char) : Nat :=
  s.foldl (fun acc c => acc * 10 + (c.toNat - 48)) 0

/-- Source `is_312`: whether a captured residue number equals the target
position, `int(x) == 312`. -/
def is_312 (x : String) : Bool := digitsToNat x.data = 312

/-- Value of a `\d+\.\d+` capture.  The source converts it with `float`; the
exact rational value is used here, which agrees with the double on every
comparison and `min` the pipeline performs on such short decimal literals. -/
def parseDa (s : String) : ℚ :=
  let intPart := s.data.takeWhile (fun c => c ≠ '.')
  let fracPart := (s.data.dropWhile (fun c => c ≠ '.')).drop 1
  mkRat (digitsToNat intPart * 10 ^ fracPart.length + digitsToNat fracPart)
    (10 ^ fracPart.length)

/-- The endpoint exchange performed inside `parse_hbonds` when the target
number is on the right-hand side: every A-side field and B-side field trade
places; the distance is untouched. -/
def swapRF (d : RawFields) : RawFields :=
  { m1 := d.m2, c1 := d.c2, r1 := d.r2, n1 := d.n2, a1 := d.a2,
    m2 := d.m1, c2 := d.c1, r2 := d.r1, n2 := d.n1, a2 := d.a1, da := d.da }

/-- The orientation step of `parse_hbonds`: `if is_312(d["n2"]): d = swap`. -/
def normalize (d : RawFields) : RawFields :=
  if is_312 d.n2 then swapRF d else d

/-- One row appended by `parse_hbonds`:
`(label, c1, r1+n1+a1, c2, r2+n2+a2, float(da))`. -/
structure BondRecord where
  state : String
  c1 : String
  center : String
  c2 : String
  partner : String
  da : ℚ
deriving DecidableEq, Repr

/-- Row construction from normalized fields, as in the source f-strings. -/
def mkRow (label : String) (d : RawFields) : BondRecord :=
  { state := label, c1 := d.c1, center := d.r1 ++ d.n1 ++ d.a1,
    c2 := d.c2, partner := d.r2 ++ d.n2 ++ d.a2, da := parseDa d.da }

/-- Source `parse_hbonds`, on the list of lines of the input file: per line,
match `pat`, skip on no match, skip when neither endpoint is 312, otherwise
normalize the orientation and append the row.  Rows keep input line order. -/
def parse_hbonds (label : String) : List String → List BondRecord
  | [] => []
  | line :: rest =>
    match patSearch line with
    | none => parse_hbonds label rest
    | some d =>
      if !(is_312 d.n1 || is_312 d.n2) then parse_hbonds label rest
      else mkRow label (normalize d) :: parse_hbonds label rest

/-- The contribution of a single line, for stating per-line properties. -/
def lineRecord (label : String) (line : String) : Option BondRecord :=
  match patSearch line with
  | none => none
  | some d =>
    if is_312 d.n1 || is_312 d.n2 then some (mkRow label (normalize d))
    else none

/-- The deduplication key of `main`:
`(state, center_chain, center_atom, partner_chain, partner_atom)`. -/
abbrev DKey := String × String × String × String × String

/-- Key extraction from a row. -/
def rkey (r : BondRecord) : DKey := (r.state, r.c1, r.center, r.c2, r.partner)

/-- Dictionary lookup in the insertion-ordered association list modelling a
Python dict. -/
def lookupD (k : DKey) : List (DKey × ℚ) → Option ℚ
  | [] => none
  | e :: t => if e.1 = k then some e.2 else lookupD k t

/-- The source's `1e9` absent-key default in `best.get(key, 1e9)`. -/
def oneE9 : ℚ := 1000000000

/-- One step of the reduction `best[key] = min(best.get(key, 1e9), da)`:
an existing key keeps its position and is updated to the minimum; a new key
is appended holding `min(1e9, da)`. -/
def updBest (acc : List (DKey × ℚ)) (k : DKey) (v : ℚ) : List (DKey × ℚ) :=
  match lookupD k acc with
  | some _ => acc.map (fun e => if e.1 = k then (e.1, min e.2 v) else e)
  | none => acc ++ [(k, min oneE9 v)]

/-- The reduction loop of `main` over all parsed rows. -/
def bestFold : List BondRecord → List (DKey × ℚ) → List (DKey × ℚ)
  | [], acc => acc
  | r :: t, acc => bestFold t (updBest acc (rkey r) r.da)

/-- The finished `best` dict, in insertion order. -/
def best (rows : List BondRecord) : List (DKey × ℚ) := bestFold rows []

/-- Rebuilding a row from a `best` entry, as in the `detail` comprehension
`(k[0], k[1], k[2], k[3], k[4], v)`. -/
def entryToRow (e : DKey × ℚ) : BondRecord :=
  { state := e.1.1, c1 := e.1.2.1, center := e.1.2.2.1,
    c2 := e.1.2.2.2.1, partner := e.1.2.2.2.2, da := e.2 }

/-- The sort key of `main`: `lambda x: (x[0], x[2], x[4], x[5])`, i.e.
`(state, center_atom, partner_atom, distance)` — chains are not part of it. -/
def sk (r : BondRecord) : String × String × String × ℚ :=
  (r.state, r.center, r.partner, r.da)

/-- Computable lexicographic comparison of character lists by code point —
Python's string comparison. -/
def lexLe : List Char → List Char → Bool
  | [], _ => true
  | _ :: _, [] => false
  | a :: as, b :: bs =>
    if a < b then true else if b < a then false else lexLe as bs

/-- Computable comparison of two rows by the sort key
`(state, center, partner, distance)`, resolving each component by equality
first, then by the component's order — Python's tuple comparison. -/
def rowLeB (a b : BondRecord) : Bool :=
  if a.state = b.state then
    if a.center = b.center then
      if a.partner = b.partner then decide (a.da ≤ b.da)
      else lexLe a.partner.data b.partner.data
    else lexLe a.center.data b.center.data
  else lexLe a.state.data b.state.data

/-- The sort key of a row, as a lexicographically ordered tuple (for stating
and proving order-theoretic facts about the comparison). -/
def rowKey (r : BondRecord) :
    Lex (List Char × Lex (List Char × Lex (List Char × ℚ))) :=
  toLex (r.state.data, toLex (r.center.data, toLex (r.partner.data, r.da)))

/-- Non-strict sort-key comparison, the order by which Python's stable
`sorted` arranges the rows (`rowLe_iff_key` below identifies it with the
lexicographic order on `rowKey`). -/
def rowLe (a b : BondRecord) : Prop := rowLeB a b = true

instance : DecidableRel rowLe := fun a b =>
  inferInstanceAs (Decidable (rowLeB a b = true))

/-- The deduplicated, deterministically ordered detail rows of `main`:
`sorted([... for k, v in best.items()], key=lambda x: (x[0], x[2], x[4], x[5]))`.
Python's sort is stable; `List.insertionSort` with the non-strict key order
computes the same (unique) stable reordering. -/
def detail (rows : List BondRecord) : List BondRecord :=
  List.insertionSort rowLe ((best rows).map entryToRow)

/-- Lookup in the summary association list. -/
def lookupS (s : String) : List (String × Nat × ℚ) → Option (Nat × ℚ)
  | [] => none
  | e :: t => if e.1 = s then some e.2 else lookupS s t

/-- One step of the summary loop over the detail rows:
`summary[state]["count"] += 1; summary[state]["min_da"] = min(..., da)` with
the `defaultdict` default `{"count": 0, "min_da": 999.0}`; a state touched for
the first time is appended at the end, as Python dicts do. -/
def updSum (acc : List (String × Nat × ℚ)) (st : String) (da : ℚ) :
    List (String × Nat × ℚ) :=
  match lookupS st acc with
  | some _ => acc.map (fun e => if e.1 = st then (e.1, e.2.1 + 1, min e.2.2 da) else e)
  | none => acc ++ [(st, 1, min 999 da)]

/-- The summary loop of `main`. -/
def summaryFold : List BondRecord → List (String × Nat × ℚ) →
    List (String × Nat × ℚ)
  | [], acc => acc
  | r :: t, acc => summaryFold t (updSum acc r.state r.da)

/-- The finished summary, one entry `(state, count, min_da)` per state, in
first-appearance order (= dict insertion/iteration order). -/
def summary (rows : List BondRecord) : List (String × Nat × ℚ) :=
  summaryFold rows []

/-- Left fold of binary `min` with a start value, the shape in which both
reduction loops accumulate minima. -/
def minWith (init : ℚ) (l : List ℚ) : ℚ := l.foldl min init

/-- The distances of the rows of `l` whose key is `k`, in order. -/
def dasOf (k : DKey) (l : List BondRecord) : List ℚ :=
  (l.filter (fun r => rkey r = k)).map (fun r => r.da)

/-- The distances of the rows of `l` with state label `st`, in order. -/
def dasOfState (st : String) (l : List BondRecord) : List ℚ :=
  (l.filter (fun r => r.state = st)).map (fun r => r.da)

/-- First-appearance deduplication of a list (used to state the summary's
ordering property). -/
def firstDedup (l : List String) : List String :=
  l.foldl (fun acc s => if s ∈ acc then acc else acc ++ [s]) []

/-- A bond line with the target residue number on endpoint A. -/
def lineMutA : String := "#1/A ASN 312 ND2  #1/B TYR 308 O  2.950 x"

/-- The same bond reported with the endpoints exchanged (target on B). -/
def lineMutB : String := "#1/B TYR 308 O  #1/A ASN 312 ND2  2.950 x"

/-- A self-referential bond line: residue 312 on both endpoints. -/
def lineSelf : String := "#1/A ASN 312 ND2  #1/A ASN 312 OD1  2.950 x"

/-- The bond of `lineMutA` with both model numbers changed. -/
def lineModels : String := "#2/A ASN 312 ND2  #3/B TYR 308 O  2.950 x"

/-- The field set `pat.search` extracts from `lineMutA`. -/
def dMutA : RawFields :=
  ⟨"1", "A", "ASN", "312", "ND2", "1", "B", "TYR", "308", "O", "2.950"⟩

/-- The field set `pat.search` extracts from `lineMutB`. -/
def dMutB : RawFields :=
  ⟨"1", "B", "TYR", "308", "O", "1", "A", "ASN", "312", "ND2", "2.950"⟩

/-- The field set `pat.search` extracts from `lineSelf`. -/
def dSelf : RawFields :=
  ⟨"1", "A", "ASN", "312", "ND2", "1", "A", "ASN", "312", "OD1", "2.950"⟩

/-- A concrete bond record (distance 2.950). -/
def rW1 : BondRecord := ⟨"S", "A", "ASN312ND2", "B", "TYR308O", mkRat 59 20⟩

/-- The same pair observed again at distance 3.100. -/
def rW2 : BondRecord := ⟨"S", "A", "ASN312ND2", "B", "TYR308O", mkRat 31 10⟩

/-- A record whose distance exceeds the reducer's `1e9` absent-key seed. -/
def rBig : BondRecord :=
  ⟨"S", "A", "ASN312ND2", "B", "TYR308O", mkRat (2 * 10 ^ 9) 1⟩

/-- A record whose distance 1000.5 exceeds the summary's `999.0` seed while
passing through deduplication unchanged. -/
def rFar : BondRecord := ⟨"S", "A", "ASN312ND2", "B", "TYR308O", mkRat 2001 2⟩

/-- Two records equal in every sort-key component (state, center atom,
partner atom, distance) but with different center chains — distinct
deduplication keys that tie under the detail ordering. -/
def rTieA : BondRecord := ⟨"S", "A", "ASN312ND2", "B", "TYR308O", mkRat 3 1⟩

/-- The tied partner of `rTieA`, differing only in the center chain. -/
def rTieB : BondRecord := ⟨"S", "C", "ASN312ND2", "B", "TYR308O", mkRat 3 1⟩

theorem matchToks_fuel_irrel :
    ∀ f : Nat, ∀ (g : Nat) (ts : List Tok) (s : List Char) (pos : Nat)
      (ev : List (Nat × Nat)),
      s.length + ts.length < f → s.length + ts.length < g →
      matchToks f ts s pos ev = matchToks g ts s pos ev := by
  intro f
  induction f using Nat.strong_induction_on with
  | _ f ih =>
    intro g ts s pos ev hf hg
    match f, g with
    | 0, _ => omega
    | _ + 1, 0 => omega
    | f' + 1, g' + 1 =>
      have hf' : f' < f' + 1 := Nat.lt_succ_self f'
      cases ts with
      | nil => rfl
      | cons tok rest =>
        simp only [List.length_cons] at hf hg
        cases tok with
        | lit c =>
          cases s with
          | nil => rfl
          | cons a s' =>
            simp only [List.length_cons] at hf hg
            simp only [matchToks]
            by_cases hac : a = c
            · rw [if_pos hac, if_pos hac]
              exact ih f' hf' g' rest s' (pos + 1) ev (by omega) (by omega)
            · rw [if_neg hac, if_neg hac]
        | one fc =>
          cases s with
          | nil => rfl
          | cons a s' =>
            simp only [List.length_cons] at hf hg
            simp only [matchToks]
            by_cases hfa : fc a = true
            · rw [if_pos hfa, if_pos hfa]
              exact ih f' hf' g' rest s' (pos + 1) ev (by omega) (by omega)
            · rw [if_neg hfa, if_neg hfa]
        | gstar fc =>
          cases s with
          | nil =>
            simp only [matchToks]
            exact ih f' hf' g' rest [] pos ev (by simp; omega)
              (by simp; omega)
          | cons a s' =>
            simp only [List.length_cons] at hf hg
            simp only [matchToks]
            by_cases hfa : fc a = true
            · rw [if_pos hfa, if_pos hfa]
              rw [ih f' hf' g' (Tok.gstar fc :: rest) s' (pos + 1) ev
                (by simp; omega) (by simp; omega)]
              cases matchToks g' (Tok.gstar fc :: rest) s' (pos + 1) ev with
              | some r => rfl
              | none =>
                exact ih f' hf' g' rest (a :: s') pos ev (by simp; omega)
                  (by simp; omega)
            · rw [if_neg hfa, if_neg hfa]
              exact ih f' hf' g' rest (a :: s') pos ev (by simp; omega)
                (by simp; omega)
        | lazystar fc =>
          simp only [matchToks]
          rw [ih f' hf' g' rest s pos ev (by omega) (by omega)]
          cases matchToks g' rest s pos ev with
          | some r => rfl
          | none =>
            cases s with
            | nil => rfl
            | cons a s' =>
              simp only [List.length_cons] at hf hg
              show (if fc a = true then
                    matchToks f' (Tok.lazystar fc :: rest) s' (pos + 1) ev
                  else none)
                = (if fc a = true then
                    matchToks g' (Tok.lazystar fc :: rest) s' (pos + 1) ev
                  else none)
              by_cases hfa : fc a = true
              · rw [if_pos hfa, if_pos hfa]
                exact ih f' hf' g' (Tok.lazystar fc :: rest) s' (pos + 1) ev
                  (by simp; omega) (by simp; omega)
              · rw [if_neg hfa, if_neg hfa]
        | openG i =>
          simp only [matchToks]
          exact ih f' hf' g' rest s pos (ev ++ [(i, pos)]) (by omega) (by omega)
        | closeG i =>
          simp only [matchToks]
          exact ih f' hf' g' rest s pos (ev ++ [(i, pos)]) (by omega) (by omega)

theorem lexLe_iff (as : List Char) : ∀ bs, lexLe as bs = true ↔ as ≤ bs := by
  induction as with
  | nil =>
    intro bs
    cases bs with
    | nil => exact iff_of_true rfl le_rfl
    | cons b t => exact iff_of_true rfl (le_of_lt (List.nil_lt_cons b t))
  | cons a as ih =>
    intro bs
    cases bs with
    | nil =>
      refine iff_of_false (by simp [lexLe]) fun h => ?_
      rcases lt_or_eq_of_le h with h | h
      · exact List.Lex.not_nil_right _ _ h
      · exact List.cons_ne_nil a as h
    | cons b bs =>
      show (if a < b then true else if b < a then false else lexLe as bs)
          = true ↔ _
      rw [le_iff_lt_or_eq]
      have hcons : (a :: as < b :: bs) ↔ List.Lex (· < ·) (a :: as) (b :: bs) :=
        Iff.rfl
      rcases lt_trichotomy a b with hab | hab | hab
      · rw [if_pos hab]
        exact iff_of_true rfl (Or.inl (hcons.mpr (List.Lex.rel hab)))
      · subst hab
        rw [if_neg (lt_irrefl a), if_neg (lt_irrefl a), ih bs, le_iff_lt_or_eq]
        constructor
        · rintro (h | h)
          · exact Or.inl (hcons.mpr (List.Lex.cons h))
          · exact Or.inr (by rw [h])
        · rintro (h | h)
          · rw [hcons, List.Lex.cons_iff] at h
            exact Or.inl h
          · injection h with h1 h2
            exact Or.inr h2
      · rw [if_neg (asymm hab), if_pos hab]
        refine iff_of_false (by simp) ?_
        rintro (h | h)
        · rw [hcons] at h
          cases h with
          | cons h' => exact lt_irrefl a hab
          | rel h' => exact lt_asymm hab h'
        · injection h with h1 h2
          exact lt_irrefl a (h1 ▸ hab)

theorem string_eq_iff_data (s t : String) : s = t ↔ s.data = t.data :=
  ⟨fun h => by rw [h], fun h => by cases s; cases t; exact congrArg String.mk h⟩

theorem rowLe_iff_key (a b : BondRecord) : rowLe a b ↔ rowKey a ≤ rowKey b := by
  unfold rowLe rowLeB rowKey
  by_cases hs : a.state = b.state
  · have hsd := (string_eq_iff_data _ _).mp hs
    by_cases hc : a.center = b.center
    · have hcd := (string_eq_iff_data _ _).mp hc
      by_cases hp : a.partner = b.partner
      · have hpd := (string_eq_iff_data _ _).mp hp
        rw [if_pos hs, if_pos hc, if_pos hp]
        simp [Prod.Lex.le_iff, Prod.Lex.lt_iff, hsd, hcd, hpd, lt_self_iff_false]
      · have hpd : a.partner.data ≠ b.partner.data := fun h =>
          hp ((string_eq_iff_data _ _).mpr h)
        rw [if_pos hs, if_pos hc, if_neg hp, lexLe_iff, le_iff_lt_or_eq]
        simp [Prod.Lex.le_iff, Prod.Lex.lt_iff, hsd, hcd, hpd, lt_self_iff_false]
    · have hcd : a.center.data ≠ b.center.data := fun h =>
        hc ((string_eq_iff_data _ _).mpr h)
      rw [if_pos hs, if_neg hc, lexLe_iff, le_iff_lt_or_eq]
      simp [Prod.Lex.le_iff, Prod.Lex.lt_iff, hsd, hcd, lt_self_iff_false]
  · have hsd : a.state.data ≠ b.state.data := fun h =>
      hs ((string_eq_iff_data _ _).mpr h)
    rw [if_neg hs, lexLe_iff, le_iff_lt_or_eq]
    simp [Prod.Lex.le_iff, Prod.Lex.lt_iff, hsd, lt_self_iff_false]

instance : IsTotal BondRecord rowLe :=
  ⟨fun a b => (le_total (rowKey a) (rowKey b)).imp
    (rowLe_iff_key a b).mpr (rowLe_iff_key b a).mpr⟩

instance : IsTrans BondRecord rowLe :=
  ⟨fun a b c hab hbc => (rowLe_iff_key a c).mpr
    (le_trans ((rowLe_iff_key a b).mp hab) ((rowLe_iff_key b c).mp hbc))⟩

theorem normalize_n1_312 (d : RawFields)
    (h : (is_312 d.n1 || is_312 d.n2) = true) :
    is_312 (normalize d).n1 = true := by
  unfold normalize
  by_cases hn : is_312 d.n2 = true
  · rw [if_pos hn]; exact hn
  · rw [if_neg hn]
    rcases Bool.or_eq_true_iff.mp h with h1 | h2
    · exact h1
    · exact absurd h2 hn

theorem normalize_n2_iff (d : RawFields) :
    is_312 (normalize d).n2 = true ↔
      (is_312 d.n1 = true ∧ is_312 d.n2 = true) := by
  unfold normalize
  by_cases hn : is_312 d.n2 = true
  · rw [if_pos hn]; simp [swapRF, hn]
  · rw [if_neg hn]; simp [hn]

theorem parse_hbonds_eq_filterMap (label : String) (lines : List String) :
    parse_hbonds label lines = lines.filterMap (lineRecord label) := by
  induction lines with
  | nil => rfl
  | cons l t ih =>
    cases hp : patSearch l with
    | none => simp [parse_hbonds, lineRecord, hp, ih]
    | some d =>
      by_cases h : (is_312 d.n1 || is_312 d.n2) = true
      · simp [parse_hbonds, lineRecord, hp, h, ih]
      · simp [parse_hbonds, lineRecord, hp, h, ih]

/-- C1 (corrected).  When the target number 312 appears on both endpoints,
the normalizer does not return the field set unchanged: the swap condition
tests only endpoint B, so the two sides are exchanged; the record is still
kept, not treated as an error (the sole output row is built from the swapped
field set).  `C1_counterexample` refutes the original no-swap claim. -/
theorem C1_selfpair_swaps (label : String) (line : String) (d : RawFields)
    (hm : patSearch line = some d) (h1 : is_312 d.n1 = true)
    (h2 : is_312 d.n2 = true) :
    parse_hbonds label [line] = [mkRow label (swapRF d)] := by
  simp [parse_hbonds, hm, h1, h2, normalize]

/-- C1 witness: the amended claim at the concrete self-referential line. -/
theorem C1_witness :
    parse_hbonds "Mut" [lineSelf] = [mkRow "Mut" (swapRF dSelf)] :=
  C1_selfpair_swaps "Mut" lineSelf dSelf (by decide) (by decide) (by decide)

/-- C1 counterexample: a matched field set with 312 on both endpoints that the
normalizer does not pass through unchanged. -/
theorem C1_counterexample :
    patSearch lineSelf = some dSelf ∧ is_312 dSelf.n1 = true
      ∧ is_312 dSelf.n2 = true ∧ normalize dSelf ≠ dSelf := by decide

/-- C6 (confirmed).  A matched field set carrying the target number only on
endpoint B produces, after normalization, exactly the record of the
endpoint-exchanged field set (state, chains, atom identifiers and distance
all equal); in particular the scenario line with 312 on the second endpoint
yields center ASN312ND2, partner TYR308O, distance 2.950. -/
theorem C6_orientation_independent (label : String) (d : RawFields)
    (h1 : is_312 d.n1 = false) (h2 : is_312 d.n2 = true) :
    mkRow label (normalize d) = mkRow label (normalize (swapRF d))
      ∧ lineRecord "S" lineMutB
        = some { state := "S", c1 := "A", center := "ASN312ND2", c2 := "B",
                 partner := "TYR308O", da := mkRat 59 20 } := by
  constructor
  · simp [normalize, swapRF, h1, h2]
  · decide

/-- C6 witness: the orientation equality at the concrete field set of the
scenario line. -/
theorem C6_witness :
    mkRow "S" (normalize dMutB) = mkRow "S" (normalize (swapRF dMutB))
      ∧ lineRecord "S" lineMutB
        = some { state := "S", c1 := "A", center := "ASN312ND2", c2 := "B",
                 partner := "TYR308O", da := mkRat 59 20 } :=
  C6_orientation_independent "S" dMutB (by decide) (by decide)

/-- C7 (confirmed).  The extractor emits records exactly for the lines that
match the grammar with 312 on at least one extracted endpoint (a matched line
with 312 on neither side contributes nothing), and the emitted records appear
in input line order (the output is the in-order `filterMap` of the per-line
contribution). -/
theorem C7_emit_iff (label : String) (lines : List String) :
    parse_hbonds label lines = lines.filterMap (lineRecord label)
      ∧ ∀ line : String, (lineRecord label line).isSome = true
          ↔ ∃ d, patSearch line = some d
              ∧ (is_312 d.n1 || is_312 d.n2) = true := by
  refine ⟨parse_hbonds_eq_filterMap label lines, fun line => ?_⟩
  cases hp : patSearch line with
  | none => simp [lineRecord, hp]
  | some d =>
    by_cases h : (is_312 d.n1 || is_312 d.n2) = true
    · simp [lineRecord, hp, h]
      exact Bool.or_eq_true_iff.mp h
    · have h' : is_312 d.n1 = false ∧ is_312 d.n2 = false := by simpa using h
      simp [lineRecord, hp, h, h'.1, h'.2]

/-- C9 (confirmed).  A line that fails the line grammar contributes zero
records whatever its content: deleting it from the input leaves the extracted
sequence unchanged.  The failure is silent — `parse_hbonds` is a total
function into plain lists, with no error or diagnostic channel. -/
theorem C9_nonmatching_invisible (label : String) (pre post : List String)
    (bad : String) (hbad : patSearch bad = none) :
    parse_hbonds label (pre ++ bad :: post)
      = parse_hbonds label (pre ++ post) := by
  induction pre with
  | nil => simp [parse_hbonds, hbad]
  | cons l t ih =>
    cases hp : patSearch l with
    | none => simp [parse_hbonds, hp, ih]
    | some d => simp [parse_hbonds, hp, ih]

/-- C9 witness: dropping a concrete junk line changes nothing. -/
theorem C9_witness :
    parse_hbonds "S" ([lineMutA] ++ "hello world" :: [])
      = parse_hbonds "S" ([lineMutA] ++ []) :=
  C9_nonmatching_invisible "S" [lineMutA] [] "hello world" (by decide)

/-- C10 (confirmed).  Model identifiers are dropped from every output: two
lines whose matched field sets agree except in the model-number captures
produce identical Bond Records (hence the same deduplication key, collapsing
to one deduplicated row); no record field depends on a model number. -/
theorem C10_models_dropped (label : String) (l1 l2 : String) (d : RawFields)
    (ma mb : String) (h1 : patSearch l1 = some d)
    (h2 : patSearch l2 = some { d with m1 := ma, m2 := mb }) :
    lineRecord label l1 = lineRecord label l2 := by
  unfold lineRecord
  rw [h1, h2]
  by_cases hn : is_312 d.n2 = true
  · simp [normalize, swapRF, mkRow, hn]
  · simp [normalize, mkRow, hn]

/-- C10 witness: the concrete line with models `#1`,`#1` and the line with
models `#2`,`#3` contribute the same record. -/
theorem C10_witness : lineRecord "S" lineMutA = lineRecord "S" lineModels :=
  C10_models_dropped "S" lineMutA lineModels dMutA "2" "3"
    (by decide) (by decide)

/-- C3 (corrected).  Every record the extractor emits decomposes its center
identifier as residue name ++ residue number ++ atom name with the residue
number equal to 312; the partner identifier decomposes the same way, but its
residue number can also be 312 — exactly when the source field set was
self-referential (312 on both endpoints), so "never on the partner side" is
refuted by `C3_counterexample`. -/
theorem C3_center_always_312 (label : String) (lines : List String)
    (r : BondRecord) (hr : r ∈ parse_hbonds label lines) :
    ∃ d, (∃ line, line ∈ lines ∧ patSearch line = some d)
      ∧ (is_312 d.n1 || is_312 d.n2) = true
      ∧ r = mkRow label (normalize d)
      ∧ r.center = (normalize d).r1 ++ ((normalize d).n1 ++ (normalize d).a1)
      ∧ is_312 (normalize d).n1 = true
      ∧ r.partner = (normalize d).r2 ++ ((normalize d).n2 ++ (normalize d).a2)
      ∧ (is_312 (normalize d).n2 = true
          ↔ is_312 d.n1 = true ∧ is_312 d.n2 = true) := by
  rw [parse_hbonds_eq_filterMap] at hr
  rcases List.mem_filterMap.mp hr with ⟨line, hline, hrec⟩
  unfold lineRecord at hrec
  cases hp : patSearch line with
  | none => rw [hp] at hrec; cases hrec
  | some d =>
    rw [hp] at hrec
    by_cases h : (is_312 d.n1 || is_312 d.n2) = true
    · have hrec' : mkRow label (normalize d) = r := by simpa [h] using hrec
      refine ⟨d, ⟨line, hline, hp⟩, h, hrec'.symm, ?_,
        normalize_n1_312 d h, ?_, normalize_n2_iff d⟩
      · rw [← hrec']; simp [mkRow, String.append_assoc]
      · rw [← hrec']; simp [mkRow, String.append_assoc]
    · exact absurd hrec (by simp [h])

/-- C3 witness: the decomposition applied to the row of a concrete line. -/
theorem C3_witness :
    ∃ d, (∃ line, line ∈ [lineMutA] ∧ patSearch line = some d)
      ∧ (is_312 d.n1 || is_312 d.n2) = true
      ∧ mkRow "S" (normalize dMutA) = mkRow "S" (normalize d)
      ∧ (mkRow "S" (normalize dMutA)).center
          = (normalize d).r1 ++ ((normalize d).n1 ++ (normalize d).a1)
      ∧ is_312 (normalize d).n1 = true
      ∧ (mkRow "S" (normalize dMutA)).partner
          = (normalize d).r2 ++ ((normalize d).n2 ++ (normalize d).a2)
      ∧ (is_312 (normalize d).n2 = true
          ↔ is_312 d.n1 = true ∧ is_312 d.n2 = true) :=
  C3_center_always_312 "S" [lineMutA] (mkRow "S" (normalize dMutA))
    (by decide)

/-- C3 counterexample: the full pipeline, fed a self-referential line,
produces a deduplicated row whose partner identifier embeds the residue
number 312. -/
theorem C3_counterexample :
    detail (parse_hbonds "Mut" [lineSelf])
      = [{ state := "Mut", c1 := "A", center := "ASN312OD1", c2 := "A",
           partner := "ASN312ND2", da := mkRat 59 20 }]
      ∧ ("ASN312ND2" : String) = "ASN" ++ ("312" ++ "ND2")
      ∧ is_312 "312" = true := by decide

theorem lookupD_eq_none_iff (k : DKey) (acc : List (DKey × ℚ)) :
    lookupD k acc = none ↔ k ∉ acc.map Prod.fst := by
  induction acc with
  | nil => simp [lookupD]
  | cons e t ih =>
    by_cases he : e.1 = k
    · simp [lookupD, he]
    · simp only [lookupD, if_neg he, ih, List.map_cons, List.mem_cons, not_or]
      exact ⟨fun h2 => ⟨fun hk => he hk.symm, h2⟩, fun h2 => h2.2⟩

theorem lookupD_map_update (acc : List (DKey × ℚ)) (k q : DKey) (v : ℚ)
    (h : q ≠ k) :
    lookupD k (acc.map (fun e => if e.1 = q then (e.1, min e.2 v) else e))
      = lookupD k acc := by
  induction acc with
  | nil => rfl
  | cons e t ih =>
    by_cases heq : e.1 = q
    · have hek : ¬e.1 = k := fun hek => h (heq ▸ hek)
      simp [lookupD, heq, hek, ih, h]
    · by_cases he : e.1 = k <;>
        simp [lookupD, heq, he, ih, h, Ne.symm h]

theorem lookupD_map_update_self (acc : List (DKey × ℚ)) (k : DKey) (v w : ℚ)
    (h : lookupD k acc = some w) :
    lookupD k (acc.map (fun e => if e.1 = k then (e.1, min e.2 v) else e))
      = some (min w v) := by
  induction acc with
  | nil => cases h
  | cons e t ih =>
    simp only [lookupD] at h
    by_cases he : e.1 = k
    · rw [if_pos he] at h
      injection h with h
      subst h
      simp [lookupD, he]
    · rw [if_neg he] at h
      simp [lookupD, he, ih h]

theorem lookupD_append_single (acc : List (DKey × ℚ)) (k q : DKey) (w : ℚ) :
    lookupD k (acc ++ [(q, w)])
      = match lookupD k acc with
        | some u => some u
        | none => if q = k then some w else none := by
  induction acc with
  | nil => simp [lookupD]
  | cons e t ih =>
    by_cases he : e.1 = k <;> simp [lookupD, he, ih]

theorem lookupD_updBest_self_some (acc : List (DKey × ℚ)) (k : DKey) (v w : ℚ)
    (h : lookupD k acc = some w) :
    lookupD k (updBest acc k v) = some (min w v) := by
  unfold updBest
  rw [h]
  exact lookupD_map_update_self acc k v w h

theorem lookupD_updBest_self_none (acc : List (DKey × ℚ)) (k : DKey) (v : ℚ)
    (h : lookupD k acc = none) :
    lookupD k (updBest acc k v) = some (min oneE9 v) := by
  unfold updBest
  rw [h, lookupD_append_single, h]
  simp

theorem lookupD_updBest_ne (acc : List (DKey × ℚ)) (k q : DKey) (v : ℚ)
    (h : q ≠ k) : lookupD k (updBest acc q v) = lookupD k acc := by
  unfold updBest
  cases hq : lookupD q acc with
  | some w => exact lookupD_map_update acc k q v h
  | none =>
    rw [lookupD_append_single]
    cases lookupD k acc with
    | some u => rfl
    | none => simp [h]

theorem minWith_cons (init a : ℚ) (l : List ℚ) :
    minWith init (a :: l) = minWith (min init a) l := rfl

theorem dasOf_cons (k : DKey) (r : BondRecord) (t : List BondRecord) :
    dasOf k (r :: t)
      = if rkey r = k then r.da :: dasOf k t else dasOf k t := by
  by_cases h : rkey r = k <;> simp [dasOf, h]

theorem lookupD_bestFold (rows : List BondRecord) :
    ∀ (acc : List (DKey × ℚ)) (k : DKey),
      lookupD k (bestFold rows acc)
        = match lookupD k acc with
          | some w => some (minWith w (dasOf k rows))
          | none =>
            if k ∈ rows.map rkey then some (minWith oneE9 (dasOf k rows))
            else none := by
  induction rows with
  | nil =>
    intro acc k
    cases h : lookupD k acc <;> simp [bestFold, dasOf, minWith, h]
  | cons r t ih =>
    intro acc k
    show lookupD k (bestFold t (updBest acc (rkey r) r.da)) = _
    rw [ih]
    by_cases hk : rkey r = k
    · subst hk
      cases h : lookupD (rkey r) acc with
      | some w =>
        rw [lookupD_updBest_self_some acc _ r.da w h, dasOf_cons, if_pos rfl]
        simp [minWith_cons]
      | none =>
        rw [lookupD_updBest_self_none acc _ r.da h, dasOf_cons, if_pos rfl,
          if_pos (List.mem_map_of_mem rkey (List.mem_cons_self r t))]
        simp [minWith_cons]
    · rw [lookupD_updBest_ne acc k (rkey r) r.da hk]
      cases h : lookupD k acc with
      | some w =>
        rw [dasOf_cons, if_neg hk]
      | none =>
        rw [dasOf_cons, if_neg hk]
        have hmem : (k ∈ (r :: t).map rkey) ↔ (k ∈ t.map rkey) := by
          rw [List.map_cons, List.mem_cons]
          exact ⟨fun h2 => h2.resolve_left fun h3 => hk h3.symm, Or.inr⟩
        simp only [hmem]

theorem keys_map_update (acc : List (DKey × ℚ)) (q : DKey) (v : ℚ) :
    (acc.map (fun e => if e.1 = q then (e.1, min e.2 v) else e)).map Prod.fst
      = acc.map Prod.fst := by
  induction acc with
  | nil => rfl
  | cons e t ih =>
    by_cases heq : e.1 = q <;> simp [heq, ih]

theorem keys_updBest_some (acc : List (DKey × ℚ)) (k : DKey) (v w : ℚ)
    (h : lookupD k acc = some w) :
    (updBest acc k v).map Prod.fst = acc.map Prod.fst := by
  unfold updBest
  rw [h]
  exact keys_map_update acc k v

theorem keys_updBest_none (acc : List (DKey × ℚ)) (k : DKey) (v : ℚ)
    (h : lookupD k acc = none) :
    (updBest acc k v).map Prod.fst = acc.map Prod.fst ++ [k] := by
  unfold updBest
  rw [h, List.map_append]
  rfl

theorem nodup_keys_bestFold (rows : List BondRecord) :
    ∀ acc : List (DKey × ℚ), (acc.map Prod.fst).Nodup →
      ((bestFold rows acc).map Prod.fst).Nodup := by
  induction rows with
  | nil => exact fun acc h => h
  | cons r t ih =>
    intro acc h
    apply ih
    cases hq : lookupD (rkey r) acc with
    | some w => rw [keys_updBest_some acc _ r.da w hq]; exact h
    | none =>
      rw [keys_updBest_none acc _ r.da hq]
      have hnot : rkey r ∉ acc.map Prod.fst := (lookupD_eq_none_iff _ _).mp hq
      exact h.append (List.nodup_singleton _)
        (fun x hx hx1 => by
          rw [List.mem_singleton] at hx1
          exact hnot (hx1 ▸ hx))

theorem mem_keys_bestFold (rows : List BondRecord) :
    ∀ (acc : List (DKey × ℚ)) (k : DKey),
      k ∈ (bestFold rows acc).map Prod.fst
        ↔ k ∈ acc.map Prod.fst ∨ k ∈ rows.map rkey := by
  induction rows with
  | nil => simp [bestFold]
  | cons r t ih =>
    intro acc k
    show k ∈ (bestFold t (updBest acc (rkey r) r.da)).map Prod.fst ↔ _
    rw [ih]
    cases hq : lookupD (rkey r) acc with
    | some w =>
      rw [keys_updBest_some acc _ r.da w hq, List.map_cons, List.mem_cons]
      have hm : rkey r ∈ acc.map Prod.fst := by
        by_contra hnot
        rw [← lookupD_eq_none_iff] at hnot
        rw [hnot] at hq
        cases hq
      constructor
      · rintro (h | h)
        · exact Or.inl h
        · exact Or.inr (Or.inr h)
      · rintro (h | h | h)
        · exact Or.inl h
        · exact Or.inl (h ▸ hm)
        · exact Or.inr h
    | none =>
      rw [keys_updBest_none acc _ r.da hq, List.map_cons, List.mem_cons]
      constructor
      · rintro (h | h)
        · rcases List.mem_append.mp h with h | h
          · exact Or.inl h
          · rw [List.mem_singleton] at h
            exact Or.inr (Or.inl h)
        · exact Or.inr (Or.inr h)
      · rintro (h | h | h)
        · exact Or.inl (List.mem_append.mpr (Or.inl h))
        · exact Or.inl (List.mem_append.mpr (Or.inr (List.mem_singleton.mpr h)))
        · exact Or.inr h

theorem countP_keys_eq_one (l : List (DKey × ℚ)) (k : DKey)
    (hnd : (l.map Prod.fst).Nodup) (hk : k ∈ l.map Prod.fst) :
    l.countP (fun e => decide (e.1 = k)) = 1 := by
  induction l with
  | nil => cases hk
  | cons e t ih =>
    rw [List.map_cons, List.nodup_cons] at hnd
    rw [List.map_cons, List.mem_cons] at hk
    rw [List.countP_cons]
    rcases hk with h | h
    · have he : e.1 = k := h.symm
      have hz : t.countP (fun e => decide (e.1 = k)) = 0 := by
        rw [List.countP_eq_zero]
        intro a ha
        simp only [decide_eq_true_eq]
        intro hak
        exact hnd.1 (he ▸ hak ▸ List.mem_map_of_mem Prod.fst ha)
      simp [hz, he]
    · have hek : ¬ e.1 = k := fun hek =>
        hnd.1 (hek ▸ h)
      simp [hek, ih hnd.2 h]

/-- C2 (corrected).  The reducer keeps exactly one entry per deduplication
key, but its distance is the minimum of the `1e9` absent-key seed
(`best.get(key, 1e9)`) and the distances seen for the key — equal to the
claimed "minimum of the distances" exactly when some distance for the key is
at most `1e9`; `C2_counterexample` shows a record whose distance exceeds the
seed and is replaced by it. -/
theorem C2_one_row_min_distance (rows : List BondRecord) (k : DKey)
    (hk : k ∈ rows.map rkey) :
    (best rows).countP (fun e => decide (e.1 = k)) = 1
      ∧ lookupD k (best rows) = some (minWith oneE9 (dasOf k rows)) := by
  constructor
  · exact countP_keys_eq_one _ _ (nodup_keys_bestFold rows [] (by simp))
      ((mem_keys_bestFold rows [] k).mpr (Or.inr hk))
  · have h := lookupD_bestFold rows [] k
    simpa [lookupD, hk] using h

/-- C2 witness: the reduction applied to two concrete observations of one
pair. -/
theorem C2_witness :
    (best [rW1, rW2]).countP (fun e => decide (e.1 = rkey rW1)) = 1
      ∧ lookupD (rkey rW1) (best [rW1, rW2])
        = some (minWith oneE9 (dasOf (rkey rW1) [rW1, rW2])) :=
  C2_one_row_min_distance [rW1, rW2] (rkey rW1) (by decide)

/-- C2 counterexample: a single record of distance `2e9` is reduced to the
seed `1e9`, not to the minimum of the recorded distances. -/
theorem C2_counterexample :
    lookupD (rkey rBig) (best [rBig]) = some oneE9
      ∧ dasOf (rkey rBig) [rBig] = [mkRat (2 * 10 ^ 9) 1]
      ∧ oneE9 ≠ mkRat (2 * 10 ^ 9) 1 := by decide

theorem lookupS_eq_none_iff (s : String) (acc : List (String × Nat × ℚ)) :
    lookupS s acc = none ↔ s ∉ acc.map Prod.fst := by
  induction acc with
  | nil => simp [lookupS]
  | cons e t ih =>
    by_cases he : e.1 = s
    · simp [lookupS, he]
    · simp only [lookupS, if_neg he, ih, List.map_cons, List.mem_cons, not_or]
      exact ⟨fun h2 => ⟨fun hk => he hk.symm, h2⟩, fun h2 => h2.2⟩

theorem lookupS_map_update (acc : List (String × Nat × ℚ)) (s q : String)
    (v : ℚ) (h : q ≠ s) :
    lookupS s (acc.map (fun e =>
        if e.1 = q then (e.1, e.2.1 + 1, min e.2.2 v) else e))
      = lookupS s acc := by
  induction acc with
  | nil => rfl
  | cons e t ih =>
    by_cases heq : e.1 = q
    · have hes : ¬e.1 = s := fun hes => h (heq ▸ hes)
      simp [lookupS, heq, hes, ih, h]
    · by_cases he : e.1 = s <;>
        simp [lookupS, heq, he, ih, h, Ne.symm h]

theorem lookupS_map_update_self (acc : List (String × Nat × ℚ)) (s : String)
    (v : ℚ) (cm : Nat × ℚ) (h : lookupS s acc = some cm) :
    lookupS s (acc.map (fun e =>
        if e.1 = s then (e.1, e.2.1 + 1, min e.2.2 v) else e))
      = some (cm.1 + 1, min cm.2 v) := by
  induction acc with
  | nil => cases h
  | cons e t ih =>
    simp only [lookupS] at h
    by_cases he : e.1 = s
    · rw [if_pos he] at h
      injection h with h
      subst h
      simp [lookupS, he]
    · rw [if_neg he] at h
      simp [lookupS, he, ih h]

theorem lookupS_append_single (acc : List (String × Nat × ℚ)) (s q : String)
    (cm : Nat × ℚ) :
    lookupS s (acc ++ [(q, cm)])
      = match lookupS s acc with
        | some u => some u
        | none => if q = s then some cm else none := by
  induction acc with
  | nil => simp [lookupS]
  | cons e t ih =>
    by_cases he : e.1 = s <;> simp [lookupS, he, ih]

theorem lookupS_updSum_self_some (acc : List (String × Nat × ℚ)) (s : String)
    (v : ℚ) (cm : Nat × ℚ) (h : lookupS s acc = some cm) :
    lookupS s (updSum acc s v) = some (cm.1 + 1, min cm.2 v) := by
  unfold updSum
  rw [h]
  exact lookupS_map_update_self acc s v cm h

theorem lookupS_updSum_self_none (acc : List (String × Nat × ℚ)) (s : String)
    (v : ℚ) (h : lookupS s acc = none) :
    lookupS s (updSum acc s v) = some (1, min 999 v) := by
  unfold updSum
  rw [h, lookupS_append_single, h]
  simp

theorem lookupS_updSum_ne (acc : List (String × Nat × ℚ)) (s q : String)
    (v : ℚ) (h : q ≠ s) : lookupS s (updSum acc q v) = lookupS s acc := by
  unfold updSum
  cases hq : lookupS q acc with
  | some cm => exact lookupS_map_update acc s q v h
  | none =>
    rw [lookupS_append_single]
    cases lookupS s acc with
    | some u => rfl
    | none => simp [h]

theorem dasOfState_cons (s : String) (r : BondRecord) (t : List BondRecord) :
    dasOfState s (r :: t)
      = if r.state = s then r.da :: dasOfState s t else dasOfState s t := by
  by_cases h : r.state = s <;> simp [dasOfState, h]

theorem lookupS_summaryFold (rows : List BondRecord) :
    ∀ (acc : List (String × Nat × ℚ)) (s : String),
      lookupS s (summaryFold rows acc)
        = match lookupS s acc with
          | some cm => some (cm.1 + (dasOfState s rows).length,
              minWith cm.2 (dasOfState s rows))
          | none =>
            if s ∈ rows.map (fun r => r.state) then
              some ((dasOfState s rows).length, minWith 999 (dasOfState s rows))
            else none := by
  induction rows with
  | nil =>
    intro acc s
    cases h : lookupS s acc <;> simp [summaryFold, dasOfState, minWith, h]
  | cons r t ih =>
    intro acc s
    show lookupS s (summaryFold t (updSum acc r.state r.da)) = _
    rw [ih]
    by_cases hs : r.state = s
    · subst hs
      cases h : lookupS r.state acc with
      | some cm =>
        rw [lookupS_updSum_self_some acc _ r.da cm h, dasOfState_cons,
          if_pos rfl]
        simp only [minWith_cons, List.length_cons]
        congr 1
        ext : 1
        · omega
        · rfl
      | none =>
        rw [lookupS_updSum_self_none acc _ r.da h, dasOfState_cons, if_pos rfl,
          if_pos (List.mem_map_of_mem (fun r => r.state)
            (List.mem_cons_self r t))]
        simp only [minWith_cons, List.length_cons]
        congr 1
        ext : 1
        · omega
        · rfl
    · rw [lookupS_updSum_ne acc s r.state r.da hs]
      cases h : lookupS s acc with
      | some cm =>
        rw [dasOfState_cons, if_neg hs]
      | none =>
        rw [dasOfState_cons, if_neg hs]
        have hmem : (s ∈ (r :: t).map fun r => r.state)
            ↔ (s ∈ t.map fun r => r.state) := by
          rw [List.map_cons, List.mem_cons]
          exact ⟨fun h2 => h2.resolve_left fun h3 => hs h3.symm, Or.inr⟩
        simp only [hmem]

/-- C4 (corrected).  For every state with at least one row, the summary entry
counts exactly the rows of that state, but its minimum is seeded with the
`defaultdict` default `999.0`: it equals the group's true minimum exactly
when some distance in the group is at most `999`; `C4_counterexample` shows a
deduplicated row of distance `1000.5` summarized with minimum `999`. -/
theorem C4_summary_count_min (rows : List BondRecord) (s : String)
    (hs : s ∈ rows.map (fun r => r.state)) :
    lookupS s (summary rows)
      = some ((dasOfState s rows).length, minWith 999 (dasOfState s rows)) := by
  have h := lookupS_summaryFold rows [] s
  simpa [lookupS, hs] using h

/-- C4 witness: the summary of two concrete rows of one state. -/
theorem C4_witness :
    lookupS "S" (summary [rW1, rW2])
      = some ((dasOfState "S" [rW1, rW2]).length,
          minWith 999 (dasOfState "S" [rW1, rW2])) :=
  C4_summary_count_min [rW1, rW2] "S" (by decide)

/-- C4 counterexample: a group whose only deduplicated row has distance
`1000.5` is summarized with minimum distance `999`, not the group minimum. -/
theorem C4_counterexample :
    summary (detail [rFar]) = [("S", 1, (999 : ℚ))]
      ∧ dasOfState "S" (detail [rFar]) = [mkRat 2001 2]
      ∧ (999 : ℚ) ≠ mkRat 2001 2 := by decide

theorem keys_map_updSum (acc : List (String × Nat × ℚ)) (q : String) (v : ℚ) :
    (acc.map (fun e =>
        if e.1 = q then (e.1, e.2.1 + 1, min e.2.2 v) else e)).map Prod.fst
      = acc.map Prod.fst := by
  induction acc with
  | nil => rfl
  | cons e t ih =>
    by_cases heq : e.1 = q <;> simp [heq, ih]

theorem keys_updSum_some (acc : List (String × Nat × ℚ)) (s : String) (v : ℚ)
    (cm : Nat × ℚ) (h : lookupS s acc = some cm) :
    (updSum acc s v).map Prod.fst = acc.map Prod.fst := by
  unfold updSum
  rw [h]
  exact keys_map_updSum acc s v

theorem keys_updSum_none (acc : List (String × Nat × ℚ)) (s : String) (v : ℚ)
    (h : lookupS s acc = none) :
    (updSum acc s v).map Prod.fst = acc.map Prod.fst ++ [s] := by
  unfold updSum
  rw [h, List.map_append]
  rfl

theorem keys_summaryFold (rows : List BondRecord) :
    ∀ acc : List (String × Nat × ℚ),
      (summaryFold rows acc).map Prod.fst
        = (rows.map fun r => r.state).foldl
            (fun ks s => if s ∈ ks then ks else ks ++ [s]) (acc.map Prod.fst) := by
  induction rows with
  | nil => intro acc; rfl
  | cons r t ih =>
    intro acc
    show (summaryFold t (updSum acc r.state r.da)).map Prod.fst = _
    rw [ih, List.map_cons, List.foldl_cons]
    cases hq : lookupS r.state acc with
    | some cm =>
      rw [keys_updSum_some acc _ r.da cm hq]
      have hm : r.state ∈ acc.map Prod.fst := by
        by_contra hnot
        rw [← lookupS_eq_none_iff] at hnot
        rw [hnot] at hq
        cases hq
      rw [if_pos hm]
    | none =>
      rw [keys_updSum_none acc _ r.da hq,
        if_neg ((lookupS_eq_none_iff _ _).mp hq)]

theorem mem_foldl_dedup (l : List String) :
    ∀ (acc : List String) (s : String),
      s ∈ l.foldl (fun ks x => if x ∈ ks then ks else ks ++ [x]) acc
        ↔ s ∈ acc ∨ s ∈ l := by
  induction l with
  | nil => simp
  | cons x t ih =>
    intro acc s
    rw [List.foldl_cons, ih]
    by_cases hx : x ∈ acc
    · rw [if_pos hx]
      constructor
      · rintro (h | h)
        · exact Or.inl h
        · exact Or.inr (List.mem_cons_of_mem x h)
      · rintro (h | h)
        · exact Or.inl h
        · rcases List.mem_cons.mp h with h | h
          · exact Or.inl (h ▸ hx)
          · exact Or.inr h
    · rw [if_neg hx]
      constructor
      · rintro (h | h)
        · rcases List.mem_append.mp h with h | h
          · exact Or.inl h
          · rw [List.mem_singleton] at h
            exact Or.inr (List.mem_cons.mpr (Or.inl h))
        · exact Or.inr (List.mem_cons_of_mem x h)
      · rintro (h | h)
        · exact Or.inl (List.mem_append.mpr (Or.inl h))
        · rcases List.mem_cons.mp h with h | h
          · exact Or.inl (List.mem_append.mpr
              (Or.inr (List.mem_singleton.mpr h)))
          · exact Or.inr h

theorem minWith_perm {l1 l2 : List ℚ} (hp : l1.Perm l2) :
    ∀ init, minWith init l1 = minWith init l2 := by
  induction hp with
  | nil => intro _; rfl
  | cons x _ ih => intro init; rw [minWith_cons, minWith_cons, ih]
  | swap x y l =>
    intro init
    rw [minWith_cons, minWith_cons, minWith_cons, minWith_cons,
      min_right_comm]
  | trans _ _ ih1 ih2 => intro init; rw [ih1, ih2]

theorem lookupD_best (rows : List BondRecord) (k : DKey) :
    lookupD k (best rows)
      = if k ∈ rows.map rkey then some (minWith oneE9 (dasOf k rows))
        else none := by
  have h := lookupD_bestFold rows [] k
  simpa [lookupD] using h

theorem lookupD_best_perm {l1 l2 : List BondRecord} (hp : l1.Perm l2)
    (k : DKey) : lookupD k (best l1) = lookupD k (best l2) := by
  rw [lookupD_best, lookupD_best]
  have hdas : (dasOf k l1).Perm (dasOf k l2) := by
    unfold dasOf
    exact (hp.filter (fun r => decide (rkey r = k))).map (fun r => r.da)
  have hmem : k ∈ l1.map rkey ↔ k ∈ l2.map rkey := (hp.map rkey).mem_iff
  by_cases hm : k ∈ l1.map rkey
  · rw [if_pos hm, if_pos (hmem.mp hm), minWith_perm hdas oneE9]
  · rw [if_neg hm, if_neg fun h => hm (hmem.mpr h)]

theorem lookupD_split {B : List (DKey × ℚ)} {k : DKey} {v : ℚ}
    (h : lookupD k B = some v) :
    ∃ B1 B2, B = B1 ++ (k, v) :: B2 ∧ k ∉ B1.map Prod.fst := by
  induction B with
  | nil => cases h
  | cons e t ih =>
    simp only [lookupD] at h
    by_cases he : e.1 = k
    · rw [if_pos he] at h
      injection h with h
      refine ⟨[], t, ?_, by simp⟩
      have : e = (k, v) := Prod.ext he h
      rw [this]
      rfl
    · rw [if_neg he] at h
      rcases ih h with ⟨B1, B2, hB, hk⟩
      refine ⟨e :: B1, B2, by rw [hB]; rfl, ?_⟩
      rw [List.map_cons, List.mem_cons]
      rintro (h2 | h2)
      · exact he h2.symm
      · exact hk h2

theorem lookupD_append_cons_ne (B1 B2 : List (DKey × ℚ)) (e : DKey × ℚ)
    (k : DKey) (h : e.1 ≠ k) :
    lookupD k (B1 ++ e :: B2) = lookupD k (B1 ++ B2) := by
  induction B1 with
  | nil => simp [lookupD, h]
  | cons f t ih => by_cases hf : f.1 = k <;> simp [lookupD, hf, ih]

theorem perm_of_lookupD_eq :
    ∀ (A B : List (DKey × ℚ)), (A.map Prod.fst).Nodup →
      (B.map Prod.fst).Nodup → (∀ k, lookupD k A = lookupD k B) → A.Perm B := by
  intro A
  induction A with
  | nil =>
    intro B _ _ h
    cases B with
    | nil => exact List.Perm.refl []
    | cons e t =>
      have h1 := h e.1
      rw [show lookupD e.1 (e :: t) = some e.2 from if_pos rfl] at h1
      cases h1
  | cons a A' ih =>
    intro B hA hB h
    obtain ⟨k, v⟩ := a
    have hBk : lookupD k B = some v := by
      rw [← h k]
      exact if_pos rfl
    rcases lookupD_split hBk with ⟨B1, B2, rfl, hkB1⟩
    rw [List.map_cons, List.nodup_cons] at hA
    have hB' : ((B1 ++ B2).map Prod.fst).Nodup :=
      (((List.sublist_cons_self (k, v) B2).append_left B1).map Prod.fst).nodup hB
    have hkB2 : k ∉ B2.map Prod.fst := by
      have hB2 := hB
      rw [List.map_append, List.map_cons] at hB2
      rcases List.nodup_append.mp hB2 with ⟨_, h2, _⟩
      exact (List.nodup_cons.mp h2).1
    have hlk : ∀ q, lookupD q A' = lookupD q (B1 ++ B2) := by
      intro q
      by_cases hq : q = k
      · subst hq
        rw [(lookupD_eq_none_iff q A').mpr hA.1,
          (lookupD_eq_none_iff q (B1 ++ B2)).mpr ?_]
        rw [List.map_append, List.mem_append, not_or]
        exact ⟨hkB1, hkB2⟩
      · have hq2 := h q
        rw [show lookupD q ((k, v) :: A') = lookupD q A' from
          if_neg fun h2 => hq h2.symm] at hq2
        rw [hq2, lookupD_append_cons_ne B1 B2 (k, v) q fun h2 => hq h2.symm]
    have hperm : A'.Perm (B1 ++ B2) := ih (B1 ++ B2) hA.2 hB' hlk
    exact (hperm.cons (k, v)).trans List.perm_middle.symm

theorem best_perm {l1 l2 : List BondRecord} (hp : l1.Perm l2) :
    (best l1).Perm (best l2) :=
  perm_of_lookupD_eq (best l1) (best l2)
    (nodup_keys_bestFold l1 [] (by simp))
    (nodup_keys_bestFold l2 [] (by simp))
    (fun k => lookupD_best_perm hp k)

theorem detail_perm {l1 l2 : List BondRecord} (hp : l1.Perm l2) :
    (detail l1).Perm (detail l2) :=
  (List.perm_insertionSort rowLe _).trans
    (((best_perm hp).map entryToRow).trans
      (List.perm_insertionSort rowLe _).symm)

theorem sk_eq_of_rowKey_eq {a b : BondRecord} (h : rowKey a = rowKey b) :
    sk a = sk b := by
  unfold rowKey at h
  simp only [toLex_inj, Prod.mk.injEq] at h
  obtain ⟨h1, h2, h3, h4⟩ := h
  unfold sk
  rw [(string_eq_iff_data _ _).mpr h1, (string_eq_iff_data _ _).mpr h2,
    (string_eq_iff_data _ _).mpr h3, h4]

theorem eq_of_perm_sorted_skinj :
    ∀ (L1 L2 : List BondRecord), L1.Perm L2 → L1.Sorted rowLe →
      L2.Sorted rowLe →
      (∀ a ∈ L1, ∀ b ∈ L1, sk a = sk b → a = b) → L1 = L2 := by
  intro L1
  induction L1 with
  | nil => exact fun L2 hp _ _ _ => hp.nil_eq
  | cons a T1 ih =>
    intro L2 hp hs1 hs2 hinj
    cases L2 with
    | nil => cases hp.eq_nil
    | cons b T2 =>
      have hab : a = b := by
        by_cases heq : a = b
        · exact heq
        · have haL2 : a ∈ b :: T2 := hp.subset (List.mem_cons_self a T1)
          have hbL1 : b ∈ a :: T1 := hp.symm.subset (List.mem_cons_self b T2)
          have h1 : rowLe a b := by
            rcases List.mem_cons.mp hbL1 with h | h
            · exact absurd h.symm heq
            · exact (List.sorted_cons.mp hs1).1 b h
          have h2 : rowLe b a := by
            rcases List.mem_cons.mp haL2 with h | h
            · exact absurd h heq
            · exact (List.sorted_cons.mp hs2).1 a h
          have hk : rowKey a = rowKey b :=
            le_antisymm ((rowLe_iff_key a b).mp h1) ((rowLe_iff_key b a).mp h2)
          exact hinj a (List.mem_cons_self a T1) b hbL1 (sk_eq_of_rowKey_eq hk)
      subst hab
      have hp' : T1.Perm T2 := hp.cons_inv
      have heq := ih T2 hp' (List.sorted_cons.mp hs1).2
        (List.sorted_cons.mp hs2).2
        (fun x hx y hy hxy =>
          hinj x (List.mem_cons_of_mem a hx) y (List.mem_cons_of_mem a hy) hxy)
      rw [heq]

/-- C5 (corrected).  Reordering the input never changes the deduplicated
key-to-distance map, and the sorted detail sequences of two input orders are
permutations of each other; they are identical whenever no two distinct
deduplicated rows share the composite sort key (state, center atom, partner
atom, distance).  But the sort key omits the chain columns, and Python's sort
is stable, so rows tying on the composite key keep dict insertion order —
`C5_counterexample` shows two orderings of the same records whose exports
differ, refuting the unconditional claim. -/
theorem C5_determinism (l1 l2 : List BondRecord) (hp : l1.Perm l2) :
    (∀ k, lookupD k (best l1) = lookupD k (best l2))
      ∧ (detail l1).Perm (detail l2)
      ∧ ((∀ a ∈ detail l1, ∀ b ∈ detail l1, sk a = sk b → a = b) →
          detail l1 = detail l2) :=
  ⟨fun k => lookupD_best_perm hp k, detail_perm hp, fun hinj =>
    eq_of_perm_sorted_skinj (detail l1) (detail l2) (detail_perm hp)
      (List.sorted_insertionSort rowLe _) (List.sorted_insertionSort rowLe _)
      hinj⟩

/-- C5 witness: the amended claim at two orderings of two concrete rows. -/
theorem C5_witness :
    (∀ k, lookupD k (best [rW1, rTieB]) = lookupD k (best [rTieB, rW1]))
      ∧ (detail [rW1, rTieB]).Perm (detail [rTieB, rW1])
      ∧ ((∀ a ∈ detail [rW1, rTieB], ∀ b ∈ detail [rW1, rTieB],
            sk a = sk b → a = b) →
          detail [rW1, rTieB] = detail [rTieB, rW1]) :=
  C5_determinism [rW1, rTieB] [rTieB, rW1] (by decide)

/-- C5 counterexample: two rows equal in every sort-key component but with
different center chains appear in input order after sorting, so the two
permutations of the same records yield different ordered sequences. -/
theorem C5_counterexample :
    ([rTieA, rTieB] : List BondRecord).Perm [rTieB, rTieA]
      ∧ detail [rTieA, rTieB] ≠ detail [rTieB, rTieA] := by decide

/-- C8 (confirmed).  The summary lists one entry per state in the order in
which states first appear among its input rows (for the pipeline, the
deduplicated detail rows), and an entry exists for a state exactly when some
row carries it — so no entry exists for a state with zero rows. -/
theorem C8_summary_first_appearance (rows : List BondRecord) :
    (summary rows).map Prod.fst = firstDedup (rows.map fun r => r.state)
      ∧ ∀ s : String, s ∈ (summary rows).map Prod.fst
          ↔ s ∈ rows.map fun r => r.state := by
  have h1 : (summary rows).map Prod.fst
      = firstDedup (rows.map fun r => r.state) := by
    have h := keys_summaryFold rows []
    simpa [firstDedup] using h
  refine ⟨h1, fun s => ?_⟩
  rw [h1]
  unfold firstDedup
  rw [mem_foldl_dedup]
  simp

end Hbonds312
